import Mathlib

/-
Verification development for the cpython-stats ingestion pipeline.

The definitions below are shallow embeddings of the Python sources:
  * `update_in_place`, `is_up_to_date`, `update_db_action` embed
    src/cpython_stats/import_gh_pr.py;
  * `maybe_github_ui_email`, `find_user`, `most_common_user_in_prs`, `nice`
    embed src/cpython_stats/gh_utils.py;
  * `update_db_step` / `update_db_walk` embed the commit-walking pass of
    src/cpython_stats/import_git_repo.py.

Python strings are modelled as `List Char` (a Python `str` is a sequence of
code points), machine integers as `Nat`/`Int`, fallible functions return
`Option`/`Except`, and the sqlite identity cache is an association list kept
in insertion order (the table has a unique index on the email column).
-/

namespace CpythonStats

/-! ## Python truthiness and the Change field-merge policy
    (src/cpython_stats/import_gh_pr.py, `update_in_place`) -/

/-- A model of the Python values that can sit in a `Change` dataclass field:
`None`, booleans, integers, strings, datetimes (always truthy in Python),
and list/set containers (truthy iff non-empty; the identity of container
elements is abstracted to opaque tokens, since neither truthiness nor the
field-merge policy looks inside a container). -/
inductive PyVal where
  | none : PyVal
  | bool : Bool → PyVal
  | int : Int → PyVal
  | str : List Char → PyVal
  | dt : Nat → PyVal
  | listv : List Nat → PyVal
  | setv : List Nat → PyVal
deriving DecidableEq

/-- Python truthiness (`bool(v)`) for the modelled values. `datetime`
objects define no `__bool__`/`__len__`, so they are always truthy. -/
def truthy : PyVal → Bool
  | PyVal.none => false
  | PyVal.bool b => b
  | PyVal.int n => decide (n ≠ 0)
  | PyVal.str s => decide (s ≠ [])
  | PyVal.dt _ => true
  | PyVal.listv l => decide (l ≠ [])
  | PyVal.setv l => decide (l ≠ [])

/-- The dataclass fields of `m.Change` (src/cpython_stats/models.py), in the
order of `Change.__dataclass_fields__`. -/
inductive ChangeField where
  | title | description | files | branch | contributors
  | opened_at | merged_at | closed_at | updated_at
  | commit_id | pr_id | comments | labels
deriving DecidableEq

/-- A stored `Change` viewed as an assignment of a Python value to each
dataclass field, which is exactly how `update_in_place` accesses it
(via `getattr`/`setattr` over `Change.__dataclass_fields__`). -/
def ChangeObj : Type := ChangeField → PyVal

/-- Embedding of `update_in_place(old, pr)` from import_gh_pr.py, after the
fetched PR has been turned into a `Change` (`current = new_change_from(pr)`).
For each field: `if current_value or not old_value: setattr(old, field,
current_value)`. -/
def update_in_place (old current : ChangeObj) : ChangeObj :=
  fun f => if truthy (current f) || !truthy (old f) then current f else old f

/-! ## Freshness check (src/cpython_stats/import_gh_pr.py, `is_up_to_date`)

Timestamps are modelled as `Nat`; `Option Nat` models `datetime | None`.
`prUpdatedAt` models `pr.updated_at` (a datetime is always truthy, so the
Python guard `if pr.updated_at:` is an `isSome` test); `prLastModified`
models the already-parsed `pr.last_modified` header. -/

structure ChangeStamps where
  updated_at : Option Nat
  merged_at : Option Nat
  closed_at : Option Nat
deriving DecidableEq

/-- Embedding of `is_up_to_date(old, pr)`. The `.error` case models the
`raise ValueError(...)` taken when the PR exposes neither `updated_at` nor
`last_modified`. -/
def is_up_to_date (old : ChangeStamps) (prUpdatedAt prLastModified : Option Nat) :
    Except Unit Bool :=
  match prUpdatedAt with
  | some t => Except.ok (decide (old.updated_at = some t))
  | Option.none =>
    match prLastModified with
    | some lastMod =>
      if old.merged_at = some lastMod then Except.ok true
      else if old.closed_at = some lastMod then Except.ok true
      else Except.ok false
    | Option.none => Except.error ()

/-- What `update_db` (import_gh_pr.py) does with one PR: import it when no
record is stored, skip when `is_up_to_date`, update otherwise; an exception
from `is_up_to_date` is caught by the `except Exception` handler, which
prints a warning and skips the record. -/
inductive DbAction where
  | importNew | skip | update | errorSkip
deriving DecidableEq

/-- The per-PR decision logic of `update_db` in import_gh_pr.py. -/
def update_db_action (old : Option ChangeStamps) (prUpdatedAt prLastModified : Option Nat) :
    DbAction :=
  match old with
  | Option.none => DbAction.importNew
  | some o =>
    match is_up_to_date o prUpdatedAt prLastModified with
    | Except.ok true => DbAction.skip
    | Except.ok false => DbAction.update
    | Except.error _ => DbAction.errorSkip

/-! ## Python `int(str)` parsing (used by `maybe_github_ui_email`)

`int(user_id)` accepts optional surrounding whitespace, an optional sign,
and a non-empty run of decimal digits in which single underscores may
appear between two digits.  (Unicode digits and exotic Unicode whitespace,
which CPython would also accept, do not occur in email local parts and are
not modelled.) -/

/-- Whitespace characters stripped by `int()` before parsing. -/
def pyStrippable (c : Char) : Bool :=
  c == ' ' || c == '\t' || c == '\n' || c == '\x0b' || c == '\x0c' || c == '\r'

/-- A non-empty digit run, allowing a single `_` between two digits
(Python 3.6+ numeric-literal underscores, accepted by `int()`). -/
def pyDigitsU : List Char → Bool
  | [] => false
  | [c] => c.isDigit
  | c :: '_' :: rest => c.isDigit && pyDigitsU rest
  | c :: rest => c.isDigit && pyDigitsU rest

/-- Whether `int(s)` succeeds on the (code-point sequence of the) string. -/
def pyIntParses (s : List Char) : Bool :=
  let stripped := ((s.dropWhile pyStrippable).reverse.dropWhile pyStrippable).reverse
  match stripped with
  | '+' :: rest => pyDigitsU rest
  | '-' :: rest => pyDigitsU rest
  | other => pyDigitsU other

/-! ## Structural noreply-address match
    (src/cpython_stats/gh_utils.py, `maybe_github_ui_email`) -/

/-- The code points of `"@users.noreply.github.com"`. -/
def noreplyDomain : List Char :=
  ['@', 'u', 's', 'e', 'r', 's', '.', 'n', 'o', 'r', 'e', 'p', 'l', 'y',
   '.', 'g', 'i', 't', 'h', 'u', 'b', '.', 'c', 'o', 'm']

/-- Python `s.endswith(suffix)` on code-point sequences. -/
def endswith (s suffix : List Char) : Bool :=
  decide (suffix.length ≤ s.length) &&
    decide (s.drop (s.length - suffix.length) = suffix)

/-- Embedding of `maybe_github_ui_email(email)`: `some username` models a
successful return of `m.User(username)`, `none` models the trailing
`raise ValueError("e-mail address doesn't match")`. -/
def maybe_github_ui_email (email : List Char) : Option (List Char) :=
  if endswith email noreplyDomain then
    let user := email.take (email.length - noreplyDomain.length)
    if '+' ∈ user then
      let user_id := user.takeWhile (fun c => c != '+')
      let username := (user.dropWhile (fun c => c != '+')).drop 1
      if pyIntParses user_id then some username else Option.none
    else some user
  else Option.none

/-! ## `find_user` (src/cpython_stats/gh_utils.py)

The sqlite identity cache is an association list of
`(email, gh_user-or-null)` rows in insertion order (unique index on email,
first row wins in `_get_cached_gh_user_for_email`).  The observable side
effects of one call are recorded as an `Event` trace: reading the cache
table, a `gh.get_rate_limit()` round-trip inside `nice`, the
`gh.search_users` call, and the cache insert. -/

/-- The email → username-or-null rows of the `email_to_gh_user` table. -/
abbrev CacheT : Type := List (List Char × Option (List Char))

/-- Observable cache / network effects of `find_user`. -/
inductive Event where
  | cacheRead | rateLimit | search | cacheWrite
deriving DecidableEq

/-- How one `find_user` call ends: a username, the
`ValueError("Invalid email passed")`, the
`ValueError("Multiple users returned")`, or `LookupError`. -/
inductive FUOutcome where
  | ok : List Char → FUOutcome
  | invalidEmail : FUOutcome
  | multipleUsers : FUOutcome
  | notFound : FUOutcome
deriving DecidableEq

/-- Embedding of `_get_cached_gh_user_for_email(sqlite, email)`:
`none` models the `raise LookupError(email)` when no row exists,
`some r` models returning the first row's `gh_user` column. -/
def _get_cached_gh_user_for_email (cache : CacheT) (email : List Char) :
    Option (Option (List Char)) :=
  (List.find? (fun row => row.1 == email) cache).map (fun row => row.2)

/-- The cache-lookup / remote-search stage of `find_user` (everything after
the structural match and the `"@" in email` validity check).  `sr email`
models the list of logins yielded by `gh.search_users(f"{email} in:email")`.
Returns (outcome, cache after the call, effect trace). -/
def find_user_lookup (sr : List Char → List (List Char)) (cache : CacheT)
    (email : List Char) : FUOutcome × CacheT × List Event :=
  match _get_cached_gh_user_for_email cache email with
  | some (some u) => (FUOutcome.ok u, cache, [Event.cacheRead])
  | some Option.none => (FUOutcome.notFound, cache, [Event.cacheRead])
  | Option.none =>
    let results := sr email
    let trace := [Event.cacheRead, Event.rateLimit, Event.search] ++
      results.map (fun _ => Event.rateLimit)
    if 1 < results.length then (FUOutcome.multipleUsers, cache, trace)
    else
      match results.head? with
      | some u =>
        (FUOutcome.ok u, cache ++ [(email, some u)], trace ++ [Event.cacheWrite])
      | Option.none =>
        (FUOutcome.notFound, cache ++ [(email, Option.none)],
         trace ++ [Event.cacheWrite])

/-- Embedding of `find_user(email)`: try the structural noreply match, then
reject emails without `@`, then consult the cache and fall back to the
remote user search. -/
def find_user (sr : List Char → List (List Char)) (cache : CacheT)
    (email : List Char) : FUOutcome × CacheT × List Event :=
  match maybe_github_ui_email email with
  | some u => (FUOutcome.ok u, cache, [])
  | Option.none =>
    if '@' ∈ email then find_user_lookup sr cache email
    else (FUOutcome.invalidEmail, cache, [])

/-! ## `most_common_user_in_prs` (src/cpython_stats/gh_utils.py)

`collections.Counter` over usernames is an association list in
first-insertion order (a Python dict preserves insertion order and
`counter[k] += 1` updates in place); `most_common(1)[0]` picks the entry
with the largest count, with the first-inserted entry winning ties
(`most_common` sorts stably by descending count). -/

abbrev CounterL : Type := List (List Char × Nat)

/-- `pr_authors[login] += 1`: increment the (unique) entry for the key,
or append a fresh entry with count 1. -/
def bump : CounterL → List Char → CounterL
  | [], k => [(k, 1)]
  | p :: rest, k =>
    if p.1 == k then (p.1, p.2 + 1) :: rest else p :: bump rest k

/-- The count recorded for a key (0 when absent), `counter[k]`. -/
def countOf : CounterL → List Char → Nat
  | [], _ => 0
  | p :: rest, k => if p.1 == k then p.2 else countOf rest k

/-- `counter.most_common(1)[0]` (as an `Option` for the empty counter):
the entry with the maximal count, earliest-inserted entry winning ties. -/
def most_common_1 : CounterL → Option (List Char × Nat)
  | [] => Option.none
  | p :: rest =>
    match most_common_1 rest with
    | Option.none => some p
    | some q => if q.2 > p.2 then some q else some p

/-- The `for pr_id in prs:` loop of `most_common_user_in_prs`:
`fetch pr` models `repo.get_pull(pr)` (`none` = `GithubException`, skipped);
after each successful fetch the author's count is bumped and the loop
breaks as soon as `most_common(1)` reports a count `>= 10`.  `prs` is the
iteration order of the Python `set`. -/
def mcuLoop (fetch : Nat → Option (List Char)) : List Nat → CounterL → CounterL
  | [], acc => acc
  | pr :: rest, acc =>
    match fetch pr with
    | Option.none => mcuLoop fetch rest acc
    | some a =>
      let acc2 := bump acc a
      match most_common_1 acc2 with
      | some q => if 10 ≤ q.2 then acc2 else mcuLoop fetch rest acc2
      | Option.none => mcuLoop fetch rest acc2

/-- Embedding of `most_common_user_in_prs(email, prs)`.  Result `none`
models the `raise LookupError(email)`; on success the cached row for the
email is deleted and re-inserted with the majority author. -/
def most_common_user_in_prs (cache : CacheT) (fetch : Nat → Option (List Char))
    (prs : List Nat) (email : List Char) : Option (List Char) × CacheT :=
  let cached : Option (List Char) :=
    match _get_cached_gh_user_for_email cache email with
    | some r => r
    | Option.none => Option.none
  match cached with
  | some u => (some u, cache)
  | Option.none =>
    let pr_authors := mcuLoop fetch prs []
    match most_common_1 pr_authors with
    | Option.none => (Option.none, cache)
    | some q =>
      (some q.1,
       cache.filter (fun row => !(row.1 == email)) ++ [(email, some q.1)])

/-- The authors of the successfully fetched PRs of a candidate list, in
order (specification helper for the majority-vote theorems). -/
def fetchedAuthors (fetch : Nat → Option (List Char)) (l : List Nat) :
    List (List Char) :=
  l.filterMap fetch

/-! ## Rate limiter (src/cpython_stats/gh_utils.py, `nice`)

One iteration of the outer `while True:` loop, for one quota reading
`(remaining, limit, reset)`.  `resetPassed` models `delta.days < 0` (the
reset deadline lies in the past).  The Python test
`remaining / limit > 0.25` is float division of two small non-negative
integers compared against an exactly-representable constant, so it is
equivalent to the exact rational test `4 * remaining > limit` for every
value the API can return. -/

/-- How one iteration of `nice` ends: return immediately, return after a
single one-second pause (`time.sleep(1); return`), or sleep out the window
in one-second increments and re-read the rate limit. -/
inductive NiceOutcome where
  | proceed | proceedAfterPause | sleepThenRecheck
deriving DecidableEq

/-- One iteration of `nice(gh, domain, ..., precise=precise)` on a quota
reading. -/
def nice (remaining limit : Nat) (resetPassed : Bool) (precise : Bool) :
    NiceOutcome :=
  if precise && decide (1 < remaining) then NiceOutcome.proceed
  else if limit < 4 * remaining then NiceOutcome.proceed
  else if 50 < remaining then NiceOutcome.proceedAfterPause
  else if resetPassed then NiceOutcome.proceedAfterPause
  else NiceOutcome.sleepThenRecheck

/-! ## Commit-walking pass (src/cpython_stats/import_git_repo.py, `update_db`)

The pass consumes the (commit-sha, pr-id, username) triples yielded by
`gen_github_users_from_commits`; `pr_id = 0` is the `m.UnknownPR`
sentinel.  The shelve `db` is an association list keyed by pr id
(the Python key is the derived string `f"GH-{pr_id}"`, in bijection with
the id); `warnings` records the pr id of each
`warning: (in {sha}) unknown PR` message printed. -/

structure ChangeRec where
  contributors : List (List Char)
deriving DecidableEq

structure Triple where
  sha : List Char
  pr_id : Nat
  gh_user : List Char

structure WalkState where
  db : List (Nat × ChangeRec)
  seenPrIds : List Nat
  warnings : List Nat

/-- `db[pk]` (`none` models the `KeyError`). -/
def dbGet (db : List (Nat × ChangeRec)) (k : Nat) : Option ChangeRec :=
  (List.find? (fun p => p.1 == k) db).map (fun p => p.2)

/-- `db[pk] = change` for a key already present. -/
def dbSet (db : List (Nat × ChangeRec)) (k : Nat) (v : ChangeRec) :
    List (Nat × ChangeRec) :=
  db.map (fun p => if p.1 == k then (k, v) else p)

/-- One iteration of the `for commit_sha1, pr_id, gh_user in ...:` loop of
`update_db`: skip sentinel pr ids; on `KeyError` warn once per distinct pr
id and drop the association (the `finally:` adds the pr id to
`seen_pr_ids` on both paths); otherwise union the user into the stored
change's contributors. -/
def update_db_step (s : WalkState) (t : Triple) : WalkState :=
  if t.pr_id ≠ 0 then
    match dbGet s.db t.pr_id with
    | Option.none =>
      ⟨s.db, t.pr_id :: s.seenPrIds,
       if t.pr_id ∈ s.seenPrIds then s.warnings else s.warnings ++ [t.pr_id]⟩
    | some change =>
      if t.gh_user ∈ change.contributors then
        ⟨s.db, t.pr_id :: s.seenPrIds, s.warnings⟩
      else
        ⟨dbSet s.db t.pr_id ⟨t.gh_user :: change.contributors⟩,
         t.pr_id :: s.seenPrIds, s.warnings⟩
  else s

/-- The whole commit-walking pass over the yielded triples. -/
def update_db_walk : WalkState → List Triple → WalkState
  | s, [] => s
  | s, t :: rest => update_db_walk (update_db_step s t) rest

/-! ## Helper lemmas -/

theorem update_db_step_warn_invariant (s : WalkState) (t : Triple)
    (h1 : s.warnings.Nodup) (h2 : ∀ p ∈ s.warnings, p ∈ s.seenPrIds) :
    (update_db_step s t).warnings.Nodup ∧
      ∀ p ∈ (update_db_step s t).warnings, p ∈ (update_db_step s t).seenPrIds := by
  unfold update_db_step
  by_cases h0 : t.pr_id ≠ 0
  · rw [if_pos h0]
    cases hdb : dbGet s.db t.pr_id with
    | none =>
      by_cases hseen : t.pr_id ∈ s.seenPrIds
      · simp only [hseen, if_true]
        exact ⟨h1, fun p hp => List.mem_cons_of_mem _ (h2 p hp)⟩
      · simp only [hseen, if_false]
        refine ⟨?_, ?_⟩
        · simp only [List.nodup_append, List.nodup_cons, List.nodup_nil,
            List.disjoint_singleton]
          exact ⟨h1, by simp, fun hmem => hseen (h2 _ hmem)⟩
        · intro p hp
          rcases List.mem_append.mp hp with hp1 | hp2
          · exact List.mem_cons_of_mem _ (h2 p hp1)
          · simp only [List.mem_singleton] at hp2
            simp [hp2]
    | some change =>
      by_cases hmem : t.gh_user ∈ change.contributors <;>
        simp only [hmem, if_true, if_false] <;>
        exact ⟨h1, fun p hp => List.mem_cons_of_mem _ (h2 p hp)⟩
  · rw [if_neg h0]
    exact ⟨h1, h2⟩

theorem update_db_walk_warnings_nodup (ts : List Triple) (s : WalkState)
    (h1 : s.warnings.Nodup) (h2 : ∀ p ∈ s.warnings, p ∈ s.seenPrIds) :
    (update_db_walk s ts).warnings.Nodup := by
  induction ts generalizing s with
  | nil => exact h1
  | cons t rest ih =>
    have h := update_db_step_warn_invariant s t h1 h2
    exact ih (update_db_step s t) h.1 h.2

theorem endswith_append (u d : List Char) : endswith (u ++ d) d = true := by
  unfold endswith
  simp [List.drop_left]

theorem takeWhile_no_plus (D nm : List Char) (hD : '+' ∉ D) :
    (D ++ '+' :: nm).takeWhile (fun c => c != '+') = D := by
  induction D with
  | nil => simp
  | cons c rest ih =>
    have hc : (c != '+') = true := by
      simp only [bne_iff_ne, ne_eq]
      exact fun h => hD (h ▸ List.mem_cons_self c rest)
    have hrest : '+' ∉ rest := fun h => hD (List.mem_cons_of_mem c h)
    simp only [List.cons_append, List.takeWhile_cons, hc, if_true]
    rw [ih hrest]

theorem dropWhile_no_plus (D nm : List Char) (hD : '+' ∉ D) :
    (D ++ '+' :: nm).dropWhile (fun c => c != '+') = '+' :: nm := by
  induction D with
  | nil => simp
  | cons c rest ih =>
    have hc : (c != '+') = true := by
      simp only [bne_iff_ne, ne_eq]
      exact fun h => hD (h ▸ List.mem_cons_self c rest)
    have hrest : '+' ∉ rest := fun h => hD (List.mem_cons_of_mem c h)
    simp only [List.cons_append, List.dropWhile_cons, hc, if_true]
    exact ih hrest

theorem maybe_plus (D nm : List Char) (hD : '+' ∉ D) :
    maybe_github_ui_email (D ++ '+' :: nm ++ noreplyDomain) =
      (if pyIntParses D then some nm else Option.none) := by
  have hemail : D ++ '+' :: nm ++ noreplyDomain =
      (D ++ '+' :: nm) ++ noreplyDomain := by
    simp
  rw [hemail]
  unfold maybe_github_ui_email
  rw [endswith_append, if_pos rfl]
  have hlen : ((D ++ '+' :: nm) ++ noreplyDomain).length - noreplyDomain.length
      = (D ++ '+' :: nm).length := by simp; omega
  rw [hlen, List.take_left]
  have hmem : '+' ∈ D ++ '+' :: nm :=
    List.mem_append.mpr (Or.inr (List.mem_cons_self _ _))
  rw [if_pos hmem, takeWhile_no_plus D nm hD, dropWhile_no_plus D nm hD]
  simp

theorem maybe_noplus (nm : List Char) (h : '+' ∉ nm) :
    maybe_github_ui_email (nm ++ noreplyDomain) = some nm := by
  unfold maybe_github_ui_email
  rw [endswith_append, if_pos rfl]
  have hlen : (nm ++ noreplyDomain).length - noreplyDomain.length = nm.length := by
    simp
  rw [hlen, List.take_left, if_neg h]

theorem cache_lookup_append (cache : CacheT) (email : List Char)
    (r : Option (List Char))
    (h : _get_cached_gh_user_for_email cache email = Option.none) :
    _get_cached_gh_user_for_email (cache ++ [(email, r)]) email = some r := by
  induction cache with
  | nil => simp [_get_cached_gh_user_for_email, List.find?]
  | cons row rest ih =>
    unfold _get_cached_gh_user_for_email at h ih ⊢
    cases hbe : (row.1 == email) with
    | true =>
      rw [List.find?_cons] at h
      simp only [hbe] at h
      simp at h
    | false =>
      rw [List.find?_cons] at h
      simp only [hbe] at h
      rw [List.cons_append, List.find?_cons]
      simp only [hbe]
      exact ih h

theorem most_common_1_eq_none (c : CounterL) :
    most_common_1 c = Option.none ↔ c = [] := by
  cases c with
  | nil => simp [most_common_1]
  | cons p rest =>
    unfold most_common_1
    cases hm : most_common_1 rest with
    | none => simp
    | some q =>
      by_cases hgt : q.2 > p.2 <;> simp [hgt]

theorem most_common_1_spec (c : CounterL) (q : List Char × Nat)
    (h : most_common_1 c = some q) : q ∈ c ∧ ∀ p ∈ c, p.2 ≤ q.2 := by
  induction c generalizing q with
  | nil => cases h
  | cons p rest ih =>
    unfold most_common_1 at h
    cases hm : most_common_1 rest with
    | none =>
      rw [hm] at h
      have hq : q = p := by cases h; rfl
      subst hq
      have hrest : rest = [] := (most_common_1_eq_none rest).mp hm
      subst hrest
      exact ⟨List.mem_singleton.mpr rfl, by simp⟩
    | some q2 =>
      rw [hm] at h
      have h2 : (if q2.2 > p.2 then some q2 else some p) = some q := h
      obtain ⟨hmem2, hmax2⟩ := ih q2 hm
      by_cases hgt : q2.2 > p.2
      · rw [if_pos hgt] at h2
        have hq : q = q2 := by cases h2; rfl
        subst hq
        refine ⟨List.mem_cons_of_mem _ hmem2, ?_⟩
        intro p2 hp2
        rcases List.mem_cons.mp hp2 with rfl | hp2r
        · exact le_of_lt hgt
        · exact hmax2 p2 hp2r
      · rw [if_neg hgt] at h2
        have hq : q = p := by cases h2; rfl
        subst hq
        refine ⟨List.mem_cons_self _ _, ?_⟩
        intro p2 hp2
        rcases List.mem_cons.mp hp2 with rfl | hp2r
        · exact le_refl _
        · exact le_trans (hmax2 p2 hp2r) (not_lt.mp hgt)

theorem bump_ne_nil (c : CounterL) (a : List Char) : bump c a ≠ [] := by
  cases c with
  | nil => simp [bump]
  | cons p rest =>
    unfold bump
    split <;> simp

theorem bump_countOf (c : CounterL) (a k : List Char) :
    countOf (bump c a) k = countOf c k + (if k = a then 1 else 0) := by
  induction c with
  | nil =>
    by_cases h : k = a
    · subst h
      simp [bump, countOf]
    · have h2 : ¬ (a = k) := fun he => h he.symm
      simp [bump, countOf, h, h2]
  | cons p rest ih =>
    by_cases hpa : p.1 = a
    · by_cases hpk : p.1 = k
      · have hka : k = a := hpk ▸ hpa
        simp [bump, countOf, hpa, hpk, hka]
      · have hka : ¬ k = a := fun he => hpk (by rw [hpa, ← he])
        have hak : ¬ a = k := fun he => hka he.symm
        simp [bump, countOf, hpa, hpk, hka, hak]
    · by_cases hpk : p.1 = k
      · have hka : ¬ k = a := fun he => hpa (by rw [hpk, he])
        simp [bump, countOf, hpa, hpk, hka]
      · simp [bump, countOf, hpa, hpk, ih]

theorem countOf_le_max (c : CounterL) (n : Nat)
    (h : ∀ p ∈ c, p.2 ≤ n) (k : List Char) : countOf c k ≤ n := by
  induction c with
  | nil => simp [countOf]
  | cons p rest ih =>
    unfold countOf
    cases hpk : (p.1 == k) with
    | true => exact h p (List.mem_cons_self _ _)
    | false => exact ih (fun p2 hp2 => h p2 (List.mem_cons_of_mem _ hp2))

theorem mem_keys_bump (c : CounterL) (a k : List Char)
    (h : k ∈ (bump c a).map (fun p => p.1)) :
    k ∈ c.map (fun p => p.1) ∨ k = a := by
  induction c with
  | nil =>
    simp [bump] at h
    exact Or.inr h
  | cons p rest ih =>
    by_cases hpa : p.1 = a
    · simp only [bump, hpa, beq_self_eq_true, if_true, List.map_cons] at h
      simp only [List.map_cons, hpa]
      exact Or.inl h
    · have hbe : (p.1 == a) = false := by simp [hpa]
      simp only [bump, hbe, Bool.false_eq_true, if_false, List.map_cons] at h
      simp only [List.map_cons]
      rcases List.mem_cons.mp h with h1 | h2
      · exact Or.inl (List.mem_cons.mpr (Or.inl h1))
      · rcases ih h2 with h3 | h3
        · exact Or.inl (List.mem_cons_of_mem _ h3)
        · exact Or.inr h3

theorem bump_keys_nodup (c : CounterL) (a : List Char)
    (h : (c.map (fun p => p.1)).Nodup) :
    ((bump c a).map (fun p => p.1)).Nodup := by
  induction c with
  | nil => simp [bump]
  | cons p rest ih =>
    simp only [List.map_cons, List.nodup_cons] at h
    by_cases hpa : p.1 = a
    · simp only [bump, hpa, beq_self_eq_true, if_true, List.map_cons,
        List.nodup_cons]
      exact hpa ▸ h
    · have hbe : (p.1 == a) = false := by simp [hpa]
      simp only [bump, hbe, Bool.false_eq_true, if_false, List.map_cons,
        List.nodup_cons]
      refine ⟨?_, ih h.2⟩
      intro hmem
      rcases mem_keys_bump rest a p.1 hmem with h3 | h3
      · exact h.1 h3
      · exact hpa h3

theorem countOf_of_mem (c : CounterL) (p : List Char × Nat)
    (hnd : (c.map (fun q => q.1)).Nodup) (hp : p ∈ c) :
    countOf c p.1 = p.2 := by
  induction c with
  | nil => cases hp
  | cons q rest ih =>
    simp only [List.map_cons, List.nodup_cons] at hnd
    rcases List.mem_cons.mp hp with rfl | hpr
    · simp [countOf]
    · have hne : (q.1 == p.1) = false := by
        simp only [beq_eq_false_iff_ne, ne_eq]
        intro heq
        exact hnd.1 (heq ▸ List.mem_map_of_mem (fun r => r.1) hpr)
      unfold countOf
      rw [hne]
      exact ih hnd.2 hpr

theorem mcuLoop_cons_none (fetch : Nat → Option (List Char)) (pr : Nat)
    (rest : List Nat) (acc : CounterL) (hf : fetch pr = Option.none) :
    mcuLoop fetch (pr :: rest) acc = mcuLoop fetch rest acc := by
  simp only [mcuLoop, hf]

theorem mcuLoop_cons_stop (fetch : Nat → Option (List Char)) (pr : Nat)
    (rest : List Nat) (acc : CounterL) (a : List Char) (q : List Char × Nat)
    (hf : fetch pr = some a) (hm : most_common_1 (bump acc a) = some q)
    (h10 : 10 ≤ q.2) :
    mcuLoop fetch (pr :: rest) acc = bump acc a := by
  simp only [mcuLoop, hf, hm]
  rw [if_pos h10]

theorem mcuLoop_cons_go (fetch : Nat → Option (List Char)) (pr : Nat)
    (rest : List Nat) (acc : CounterL) (a : List Char) (q : List Char × Nat)
    (hf : fetch pr = some a) (hm : most_common_1 (bump acc a) = some q)
    (h10 : ¬ 10 ≤ q.2) :
    mcuLoop fetch (pr :: rest) acc = mcuLoop fetch rest (bump acc a) := by
  simp only [mcuLoop, hf, hm]
  rw [if_neg h10]

theorem fetchedAuthors_cons_none (fetch : Nat → Option (List Char)) (pr : Nat)
    (l : List Nat) (hf : fetch pr = Option.none) :
    fetchedAuthors fetch (pr :: l) = fetchedAuthors fetch l := by
  simp [fetchedAuthors, List.filterMap_cons, hf]

theorem fetchedAuthors_cons_some (fetch : Nat → Option (List Char)) (pr : Nat)
    (l : List Nat) (a : List Char) (hf : fetch pr = some a) :
    fetchedAuthors fetch (pr :: l) = a :: fetchedAuthors fetch l := by
  simp [fetchedAuthors, List.filterMap_cons, hf]

theorem mcuLoop_eq_nil (fetch : Nat → Option (List Char)) :
    ∀ (prs : List Nat) (acc : CounterL), mcuLoop fetch prs acc = [] →
      acc = [] ∧ ∀ pr ∈ prs, fetch pr = Option.none := by
  intro prs
  induction prs with
  | nil =>
    intro acc h
    exact ⟨h, by simp⟩
  | cons pr rest ih =>
    intro acc h
    cases hf : fetch pr with
    | none =>
      rw [mcuLoop_cons_none fetch pr rest acc hf] at h
      obtain ⟨h1, h2⟩ := ih acc h
      refine ⟨h1, ?_⟩
      intro x hx
      rcases List.mem_cons.mp hx with rfl | hx2
      · exact hf
      · exact h2 x hx2
    | some a =>
      cases hm : most_common_1 (bump acc a) with
      | none => exact absurd ((most_common_1_eq_none _).mp hm) (bump_ne_nil acc a)
      | some q =>
        by_cases h10 : 10 ≤ q.2
        · rw [mcuLoop_cons_stop fetch pr rest acc a q hf hm h10] at h
          exact absurd h (bump_ne_nil acc a)
        · rw [mcuLoop_cons_go fetch pr rest acc a q hf hm h10] at h
          obtain ⟨h1, _⟩ := ih _ h
          exact absurd h1 (bump_ne_nil acc a)

theorem mcuLoop_all_none (fetch : Nat → Option (List Char)) :
    ∀ (prs : List Nat) (acc : CounterL),
      (∀ pr ∈ prs, fetch pr = Option.none) → mcuLoop fetch prs acc = acc := by
  intro prs
  induction prs with
  | nil => intro acc _; rfl
  | cons pr rest ih =>
    intro acc hall
    rw [mcuLoop_cons_none fetch pr rest acc (hall pr (List.mem_cons_self _ _))]
    exact ih acc (fun x hx => hall x (List.mem_cons_of_mem _ hx))

theorem mcuLoop_keys_nodup (fetch : Nat → Option (List Char)) :
    ∀ (prs : List Nat) (acc : CounterL),
      (acc.map (fun p => p.1)).Nodup →
      ((mcuLoop fetch prs acc).map (fun p => p.1)).Nodup := by
  intro prs
  induction prs with
  | nil => intro acc h; exact h
  | cons pr rest ih =>
    intro acc h
    cases hf : fetch pr with
    | none =>
      rw [mcuLoop_cons_none fetch pr rest acc hf]
      exact ih acc h
    | some a =>
      cases hm : most_common_1 (bump acc a) with
      | none =>
        exact absurd ((most_common_1_eq_none _).mp hm) (bump_ne_nil acc a)
      | some q =>
        by_cases h10 : 10 ≤ q.2
        · rw [mcuLoop_cons_stop fetch pr rest acc a q hf hm h10]
          exact bump_keys_nodup acc a h
        · rw [mcuLoop_cons_go fetch pr rest acc a q hf hm h10]
          exact ih _ (bump_keys_nodup acc a h)

theorem count_singleton_ite (k a : List Char) :
    List.count k [a] = (if k = a then 1 else 0) := by
  by_cases h : k = a
  · subst h
    simp
  · have h2 : ¬ a = k := fun he => h he.symm
    simp [List.count_singleton', h, h2]

theorem mcuLoop_spec (fetch : Nat → Option (List Char)) :
    ∀ (prs : List Nat) (acc : CounterL) (base : List (List Char)),
    (∀ k, countOf acc k = base.count k) →
    (∀ k, countOf acc k < 10) →
    ∃ done rest2, prs = done ++ rest2 ∧
      (∀ k, countOf (mcuLoop fetch prs acc) k =
        (base ++ fetchedAuthors fetch done).count k) ∧
      (rest2 ≠ [] → ∃ q, most_common_1 (mcuLoop fetch prs acc) = some q ∧
        10 ≤ q.2) ∧
      (∀ done2 rest3, done = done2 ++ rest3 → rest3 ≠ [] →
        ∀ k, (base ++ fetchedAuthors fetch done2).count k < 10) := by
  intro prs
  induction prs with
  | nil =>
    intro acc base hcount hlt
    refine ⟨[], [], rfl, ?_, ?_, ?_⟩
    · intro k
      simpa [mcuLoop, fetchedAuthors] using hcount k
    · intro h
      exact absurd rfl h
    · intro done2 rest3 hsplit hne k
      exact absurd (List.append_eq_nil.mp hsplit.symm).2 hne
  | cons pr rest ih =>
    intro acc base hcount hlt
    cases hf : fetch pr with
    | none =>
      obtain ⟨done, rest2, hsplit, hcnt, hstop, hmin⟩ := ih acc base hcount hlt
      refine ⟨pr :: done, rest2, ?_, ?_, ?_, ?_⟩
      · rw [List.cons_append, ← hsplit]
      · intro k
        rw [mcuLoop_cons_none fetch pr rest acc hf,
          fetchedAuthors_cons_none fetch pr done hf]
        exact hcnt k
      · intro hne
        rw [mcuLoop_cons_none fetch pr rest acc hf]
        exact hstop hne
      · intro done2 rest3 hsplit2 hne k
        cases done2 with
        | nil =>
          have hb := hlt k
          rw [hcount k] at hb
          simpa [fetchedAuthors] using hb
        | cons x xs =>
          rw [List.cons_append] at hsplit2
          injection hsplit2 with h1 h2
          subst h1
          rw [fetchedAuthors_cons_none fetch pr xs hf]
          exact hmin xs rest3 h2 hne k
    | some a =>
      cases hm : most_common_1 (bump acc a) with
      | none =>
        exact absurd ((most_common_1_eq_none _).mp hm) (bump_ne_nil acc a)
      | some q =>
        have hq := most_common_1_spec _ q hm
        by_cases h10 : 10 ≤ q.2
        · refine ⟨[pr], rest, rfl, ?_, ?_, ?_⟩
          · intro k
            rw [mcuLoop_cons_stop fetch pr rest acc a q hf hm h10,
              bump_countOf]
            have hfa : fetchedAuthors fetch [pr] = [a] := by
              simp [fetchedAuthors, hf]
            rw [hfa, List.count_append, hcount k, count_singleton_ite]
          · intro _
            refine ⟨q, ?_, h10⟩
            rw [mcuLoop_cons_stop fetch pr rest acc a q hf hm h10]
            exact hm
          · intro done2 rest3 hsplit2 hne k
            cases done2 with
            | nil =>
              have hb := hlt k
              rw [hcount k] at hb
              simpa [fetchedAuthors] using hb
            | cons x xs =>
              rw [List.cons_append] at hsplit2
              injection hsplit2 with h1 h2
              exact absurd (List.append_eq_nil.mp h2.symm).2 hne
        · have hcount2 : ∀ k, countOf (bump acc a) k = (base ++ [a]).count k := by
            intro k
            rw [bump_countOf, List.count_append, hcount k, count_singleton_ite]
          have hlt2 : ∀ k, countOf (bump acc a) k < 10 := by
            intro k
            have hle := countOf_le_max (bump acc a) q.2 hq.2 k
            omega
          obtain ⟨done, rest2, hsplit, hcnt, hstop, hmin⟩ :=
            ih (bump acc a) (base ++ [a]) hcount2 hlt2
          refine ⟨pr :: done, rest2, ?_, ?_, ?_, ?_⟩
          · rw [List.cons_append, ← hsplit]
          · intro k
            rw [mcuLoop_cons_go fetch pr rest acc a q hf hm h10,
              fetchedAuthors_cons_some fetch pr done a hf, hcnt k]
            simp [List.append_assoc]
          · intro hne
            rw [mcuLoop_cons_go fetch pr rest acc a q hf hm h10]
            exact hstop hne
          · intro done2 rest3 hsplit2 hne k
            cases done2 with
            | nil =>
              have hb := hlt k
              rw [hcount k] at hb
              simpa [fetchedAuthors] using hb
            | cons x xs =>
              rw [List.cons_append] at hsplit2
              injection hsplit2 with h1 h2
              subst h1
              rw [fetchedAuthors_cons_some fetch pr xs a hf]
              have hb := hmin xs rest3 h2 hne k
              simpa [List.append_assoc] using hb

/-! ## Claim theorems -/

/-- C1: for a noreply email whose part before the first `+` parses as a
decimal integer, and for a `+`-free noreply email, `find_user` returns the
embedded username purely — the cache is untouched and the effect trace is
empty (no cache read/write, no rate-limit read, no search). -/
theorem find_user_noreply_pure (sr : List Char → List (List Char))
    (cache : CacheT) (D nameA nameB : List Char)
    (hD : '+' ∉ D) (hparse : pyIntParses D = true) (hB : '+' ∉ nameB) :
    find_user sr cache (D ++ '+' :: nameA ++ noreplyDomain) =
      (FUOutcome.ok nameA, cache, []) ∧
    find_user sr cache (nameB ++ noreplyDomain) =
      (FUOutcome.ok nameB, cache, []) := by
  constructor
  · unfold find_user
    rw [maybe_plus D nameA hD, hparse, if_pos rfl]
  · unfold find_user
    rw [maybe_noplus nameB hB]

/-- Witness for C1: `12345+alice@users.noreply.github.com` → `alice` and
`bob@users.noreply.github.com` → `bob`. -/
theorem find_user_noreply_pure_witness :
    find_user (fun _ => []) []
      (['1', '2', '3', '4', '5'] ++ '+' :: ['a', 'l', 'i', 'c', 'e'] ++
        noreplyDomain) =
      (FUOutcome.ok ['a', 'l', 'i', 'c', 'e'], [], []) ∧
    find_user (fun _ => []) [] (['b', 'o', 'b'] ++ noreplyDomain) =
      (FUOutcome.ok ['b', 'o', 'b'], [], []) :=
  find_user_noreply_pure (fun _ => []) [] ['1', '2', '3', '4', '5']
    ['a', 'l', 'i', 'c', 'e'] ['b', 'o', 'b'] (by decide) (by decide) (by decide)

/-- C10: for a noreply email whose part before the first `+` does not parse
as a decimal integer, the structural strategy signals no-match, and
`find_user` proceeds to the cache-lookup / remote-search stage. -/
theorem nonnumeric_noreply_falls_through (sr : List Char → List (List Char))
    (cache : CacheT) (p nm : List Char)
    (hp : '+' ∉ p) (hparse : pyIntParses p = false) :
    maybe_github_ui_email (p ++ '+' :: nm ++ noreplyDomain) = Option.none ∧
    find_user sr cache (p ++ '+' :: nm ++ noreplyDomain) =
      find_user_lookup sr cache (p ++ '+' :: nm ++ noreplyDomain) := by
  have hmaybe : maybe_github_ui_email (p ++ '+' :: nm ++ noreplyDomain) =
      Option.none := by
    rw [maybe_plus p nm hp, hparse]
    simp
  refine ⟨hmaybe, ?_⟩
  have h1 : '@' ∈ noreplyDomain := by decide
  have hat : '@' ∈ p ++ '+' :: nm ++ noreplyDomain :=
    List.mem_append.mpr (Or.inr h1)
  unfold find_user
  rw [hmaybe, if_pos hat]

/-- Witness for C10: `xy+alice@users.noreply.github.com` is not matched
structurally and reaches the lookup stage (here: an empty cache and a
search returning nothing, so the call ends in `LookupError`). -/
theorem nonnumeric_noreply_falls_through_witness :
    maybe_github_ui_email
      (['x', 'y'] ++ '+' :: ['a', 'l', 'i', 'c', 'e'] ++ noreplyDomain) =
      Option.none ∧
    find_user (fun _ => []) []
      (['x', 'y'] ++ '+' :: ['a', 'l', 'i', 'c', 'e'] ++ noreplyDomain) =
      find_user_lookup (fun _ => []) []
        (['x', 'y'] ++ '+' :: ['a', 'l', 'i', 'c', 'e'] ++ noreplyDomain) :=
  nonnumeric_noreply_falls_through (fun _ => []) [] ['x', 'y']
    ['a', 'l', 'i', 'c', 'e'] (by decide) (by decide)

/-- C2 (amended): for an email with `@`, no structural match and no cached
row, and whose remote search returns at most one candidate, two successive
`find_user` calls perform exactly one remote search — the first call does
it and caches the answer (the username, or null for zero results), and the
second call is served from the cache with the same outcome. -/
theorem find_user_cache_idempotent (sr : List Char → List (List Char))
    (cache : CacheT) (email : List Char)
    (h1 : maybe_github_ui_email email = Option.none)
    (h2 : '@' ∈ email)
    (h3 : _get_cached_gh_user_for_email cache email = Option.none)
    (h4 : (sr email).length ≤ 1) :
    ((find_user sr cache email).2.2.count Event.search = 1) ∧
    ((find_user sr (find_user sr cache email).2.1 email).2.2.count
      Event.search = 0) ∧
    (∀ u, sr email = [u] →
      (find_user sr cache email).1 = FUOutcome.ok u ∧
      (find_user sr (find_user sr cache email).2.1 email).1 = FUOutcome.ok u) ∧
    (sr email = [] →
      (find_user sr cache email).1 = FUOutcome.notFound ∧
      (find_user sr (find_user sr cache email).2.1 email).1 =
        FUOutcome.notFound) := by
  cases hsr : sr email with
  | nil =>
    have hfu1 : find_user sr cache email =
        (FUOutcome.notFound, cache ++ [(email, Option.none)],
         [Event.cacheRead, Event.rateLimit, Event.search, Event.cacheWrite]) := by
      unfold find_user find_user_lookup
      rw [h1, if_pos h2, h3]
      simp [hsr]
    have hkey := cache_lookup_append cache email Option.none h3
    have hfu2 : find_user sr (cache ++ [(email, Option.none)]) email =
        (FUOutcome.notFound, cache ++ [(email, Option.none)],
         [Event.cacheRead]) := by
      unfold find_user find_user_lookup
      rw [h1, if_pos h2, hkey]
    refine ⟨?_, ?_, ?_, ?_⟩
    · rw [hfu1]
      rfl
    · simp only [hfu1]
      rw [hfu2]
      rfl
    · intro u hu
      simp at hu
    · intro _
      simp only [hfu1]
      rw [hfu2]
      exact ⟨trivial, rfl⟩
  | cons u tail =>
    cases tail with
    | cons v tail2 =>
      rw [hsr] at h4
      simp at h4
    | nil =>
      have hfu1 : find_user sr cache email =
          (FUOutcome.ok u, cache ++ [(email, some u)],
           [Event.cacheRead, Event.rateLimit, Event.search, Event.rateLimit,
            Event.cacheWrite]) := by
        unfold find_user find_user_lookup
        rw [h1, if_pos h2, h3]
        simp [hsr]
      have hkey := cache_lookup_append cache email (some u) h3
      have hfu2 : find_user sr (cache ++ [(email, some u)]) email =
          (FUOutcome.ok u, cache ++ [(email, some u)], [Event.cacheRead]) := by
        unfold find_user find_user_lookup
        rw [h1, if_pos h2, hkey]
      refine ⟨?_, ?_, ?_, ?_⟩
      · rw [hfu1]
        rfl
      · simp only [hfu1]
        rw [hfu2]
        rfl
      · intro u2 hu2
        obtain rfl : u = u2 := by simpa using hu2
        simp only [hfu1]
        rw [hfu2]
        exact ⟨trivial, rfl⟩
      · intro hnil
        simp at hnil

/-- Witness for C2's amended statement: one-candidate search, empty cache. -/
theorem find_user_cache_idempotent_witness :
    ((find_user (fun _ => [['b', 'o', 'b']]) [] ['x', '@', 'y']).2.2.count
      Event.search = 1) ∧
    ((find_user (fun _ => [['b', 'o', 'b']])
        (find_user (fun _ => [['b', 'o', 'b']]) [] ['x', '@', 'y']).2.1
        ['x', '@', 'y']).2.2.count Event.search = 0) :=
  ⟨(find_user_cache_idempotent (fun _ => [['b', 'o', 'b']]) [] ['x', '@', 'y']
      (by decide) (by decide) rfl (by decide)).1,
   (find_user_cache_idempotent (fun _ => [['b', 'o', 'b']]) [] ['x', '@', 'y']
      (by decide) (by decide) rfl (by decide)).2.1⟩

/-- Counterexample for C2 as stated: an email whose search returns two
candidates satisfies the claim's hypotheses (contains `@`, no noreply
match, no cached row), yet nothing gets cached, so the second call runs a
second remote search instead of being answered from the cache. -/
theorem find_user_two_searches_on_ambiguous :
    maybe_github_ui_email ['x', '@', 'y'] = Option.none ∧
    '@' ∈ ['x', '@', 'y'] ∧
    _get_cached_gh_user_for_email [] ['x', '@', 'y'] = Option.none ∧
    ((find_user (fun _ => [['a'], ['b']]) [] ['x', '@', 'y']).2.2.count
      Event.search = 1) ∧
    ((find_user (fun _ => [['a'], ['b']])
        (find_user (fun _ => [['a'], ['b']]) [] ['x', '@', 'y']).2.1
        ['x', '@', 'y']).2.2.count Event.search = 1) := by
  decide

/-- C5: when the remote search returns more than one candidate username,
`find_user` fails with the multiple-users error and writes nothing to the
identity cache — the cache afterwards is the cache before, and a lookup for
the email still finds no row. -/
theorem find_user_ambiguous_not_cached (sr : List Char → List (List Char))
    (cache : CacheT) (email : List Char)
    (h1 : maybe_github_ui_email email = Option.none)
    (h2 : '@' ∈ email)
    (h3 : _get_cached_gh_user_for_email cache email = Option.none)
    (h4 : 1 < (sr email).length) :
    (find_user sr cache email).1 = FUOutcome.multipleUsers ∧
    (find_user sr cache email).2.1 = cache ∧
    _get_cached_gh_user_for_email (find_user sr cache email).2.1 email =
      Option.none := by
  have hfu : find_user sr cache email =
      (FUOutcome.multipleUsers, cache,
       [Event.cacheRead, Event.rateLimit, Event.search] ++
         (sr email).map (fun _ => Event.rateLimit)) := by
    unfold find_user find_user_lookup
    rw [h1, if_pos h2, h3]
    simp [h4]
  rw [hfu]
  exact ⟨rfl, rfl, h3⟩

/-- Witness for C5: two candidates, empty cache. -/
theorem find_user_ambiguous_not_cached_witness :
    (find_user (fun _ => [['c'], ['d']]) [] ['z', '@', 'w']).1 =
      FUOutcome.multipleUsers ∧
    (find_user (fun _ => [['c'], ['d']]) [] ['z', '@', 'w']).2.1 = [] :=
  ⟨(find_user_ambiguous_not_cached (fun _ => [['c'], ['d']]) [] ['z', '@', 'w']
      (by decide) (by decide) rfl (by decide)).1,
   (find_user_ambiguous_not_cached (fun _ => [['c'], ['d']]) [] ['z', '@', 'w']
      (by decide) (by decide) rfl (by decide)).2.1⟩

/-- C3: for an email with no usable cached resolution,
`most_common_user_in_prs` fails (`LookupError`) exactly when no candidate
PR fetches successfully; on success it returns an author of maximal count
among the PRs it processed (a prefix of the candidate order), it stopped
early only with that author's count at least 10, and every strictly
shorter prefix had all counts below 10 (the short-circuit fires as soon as
a count reaches 10). -/
theorem most_common_user_in_prs_spec (cache : CacheT)
    (fetch : Nat → Option (List Char)) (prs : List Nat) (email : List Char)
    (hNodup : prs.Nodup)
    (hcache : _get_cached_gh_user_for_email cache email = Option.none ∨
      _get_cached_gh_user_for_email cache email = some Option.none) :
    ((most_common_user_in_prs cache fetch prs email).1 = Option.none ↔
      ∀ pr ∈ prs, fetch pr = Option.none) ∧
    (∀ u, (most_common_user_in_prs cache fetch prs email).1 = some u →
      ∃ done rest2, prs = done ++ rest2 ∧
        (∀ a, (fetchedAuthors fetch done).count a ≤
          (fetchedAuthors fetch done).count u) ∧
        (rest2 ≠ [] → 10 ≤ (fetchedAuthors fetch done).count u) ∧
        (∀ done2 rest3, done = done2 ++ rest3 → rest3 ≠ [] →
          ∀ a, (fetchedAuthors fetch done2).count a < 10)) := by
  have hres : most_common_user_in_prs cache fetch prs email =
      (match most_common_1 (mcuLoop fetch prs []) with
       | Option.none => (Option.none, cache)
       | some q => (some q.1,
          cache.filter (fun row => !(row.1 == email)) ++ [(email, some q.1)])) := by
    unfold most_common_user_in_prs
    rcases hcache with h | h <;> rw [h]
  constructor
  · constructor
    · intro h
      rw [hres] at h
      cases hm : most_common_1 (mcuLoop fetch prs []) with
      | some q =>
        rw [hm] at h
        simp at h
      | none =>
        have hnil := (most_common_1_eq_none _).mp hm
        exact (mcuLoop_eq_nil fetch prs [] hnil).2
    · intro hall
      rw [hres, mcuLoop_all_none fetch prs [] hall]
      rfl
  · intro u hu
    rw [hres] at hu
    cases hm : most_common_1 (mcuLoop fetch prs []) with
    | none =>
      rw [hm] at hu
      simp at hu
    | some q =>
      rw [hm] at hu
      have hqu : q.1 = u := by simpa using hu
      obtain ⟨done, rest2, hsplit, hcnt, hstop, hmin⟩ :=
        mcuLoop_spec fetch prs [] []
          (by intro k; simp [countOf]) (by intro k; simp [countOf])
      have hnd := mcuLoop_keys_nodup fetch prs [] (by simp)
      have hq := most_common_1_spec _ q hm
      have hcu : countOf (mcuLoop fetch prs []) q.1 = q.2 :=
        countOf_of_mem _ q hnd hq.1
      have hcnt2 : ∀ a, countOf (mcuLoop fetch prs []) a =
          (fetchedAuthors fetch done).count a := by
        intro a
        have h1 := hcnt a
        rwa [List.nil_append] at h1
      refine ⟨done, rest2, hsplit, ?_, ?_, ?_⟩
      · intro a
        rw [← hqu, ← hcnt2 a, ← hcnt2 q.1, hcu]
        exact countOf_le_max (mcuLoop fetch prs []) q.2 hq.2 a
      · intro hne
        obtain ⟨q2, hq2, h10⟩ := hstop hne
        have hq2q : q2 = q := by
          rw [hm] at hq2
          cases hq2
          rfl
        subst hq2q
        rw [← hqu, ← hcnt2 q2.1, hcu]
        exact h10
      · intro done2 rest3 hs hne a
        have hb := hmin done2 rest3 hs hne a
        simpa using hb

/-- Witness for C3: two candidate PRs, neither fetchable, so the call
fails with `LookupError`. -/
theorem most_common_user_in_prs_spec_witness :
    (most_common_user_in_prs [] (fun _ => Option.none) [1, 2] ['e']).1 =
      Option.none :=
  ((most_common_user_in_prs_spec [] (fun _ => Option.none) [1, 2] ['e']
      (by decide) (Or.inl rfl)).1).mpr (fun pr _ => rfl)

/-- C6: for every stored Change, fetched Change and data field,
`update_in_place` keeps the new value when it is truthy, keeps the old
value when the new one is falsy but the old one is truthy, and takes the
new value when both are falsy. -/
theorem update_in_place_field_policy (old current : ChangeObj) (f : ChangeField) :
    (truthy (current f) = true → update_in_place old current f = current f) ∧
    (truthy (current f) = false → truthy (old f) = true →
      update_in_place old current f = old f) ∧
    (truthy (current f) = false → truthy (old f) = false →
      update_in_place old current f = current f) := by
  refine ⟨fun h => ?_, fun h1 h2 => ?_, fun h1 h2 => ?_⟩ <;>
    simp [update_in_place, *]

/-- Witness for C6 at the claim's edge case: old = `0`, new = `False`
(both falsy) yields `False`. -/
theorem update_in_place_field_policy_witness :
    truthy (PyVal.bool false) = false ∧ truthy (PyVal.int 0) = false ∧
    update_in_place (fun _ => PyVal.int 0) (fun _ => PyVal.bool false)
      ChangeField.pr_id = PyVal.bool false :=
  ⟨rfl, by decide,
   (update_in_place_field_policy (fun _ => PyVal.int 0)
     (fun _ => PyVal.bool false) ChangeField.pr_id).2.2 (by decide) (by decide)⟩

/-- C7: reconciling a stored Change against a fetched Change whose every
field equals the stored one leaves every field unchanged. -/
theorem update_in_place_identity_noop (old current : ChangeObj)
    (h : ∀ f, current f = old f) (f : ChangeField) :
    update_in_place old current f = old f := by
  simp only [update_in_place, h f]
  cases htruthy : truthy (old f) <;> simp [htruthy]

/-- Witness for C7 at a concrete Change. -/
theorem update_in_place_identity_noop_witness :
    update_in_place (fun _ => PyVal.dt 7) (fun _ => PyVal.dt 7)
      ChangeField.title = PyVal.dt 7 :=
  update_in_place_identity_noop _ _ (fun _ => rfl) ChangeField.title

/-- C8 (amended): `is_up_to_date` returns `true` iff the PR exposes a
precise `updated_at` equal to the stored one, or exposes no `updated_at`
but a `last_modified` equal to the stored `merged_at` or `closed_at`;
it raises (`.error`) exactly when the PR exposes neither timestamp, and
returns `false` in every remaining case. -/
theorem is_up_to_date_characterization (old : ChangeStamps) (pu plm : Option Nat) :
    (is_up_to_date old pu plm = Except.ok true ↔
      (pu.isSome ∧ old.updated_at = pu) ∨
      (pu = Option.none ∧ ∃ lm, plm = some lm ∧
        (old.merged_at = some lm ∨ old.closed_at = some lm))) ∧
    (is_up_to_date old pu plm = Except.error () ↔
      pu = Option.none ∧ plm = Option.none) := by
  cases pu with
  | some t => simp [is_up_to_date, eq_comm]
  | none =>
    cases plm with
    | some lm =>
      constructor
      · constructor
        · intro h
          simp only [is_up_to_date] at h
          split_ifs at h with hm hc
          · exact Or.inr ⟨rfl, lm, rfl, Or.inl hm⟩
          · exact Or.inr ⟨rfl, lm, rfl, Or.inr hc⟩
          · simp at h
        · rintro (⟨hs, _⟩ | ⟨_, lm2, hlm2, hor⟩)
          · simp at hs
          · simp only [Option.some.injEq] at hlm2
            subst hlm2
            simp only [is_up_to_date]
            rcases hor with hm | hc
            · simp [hm]
            · split_ifs <;> simp_all
      · simp only [is_up_to_date]
        split_ifs <;> simp
    | none => simp [is_up_to_date]

/-- Witness for C8: a stored and fetched `updated_at` that agree. -/
theorem is_up_to_date_characterization_witness :
    is_up_to_date ⟨some 5, Option.none, Option.none⟩ (some 5) Option.none =
      Except.ok true :=
  ((is_up_to_date_characterization ⟨some 5, Option.none, Option.none⟩
    (some 5) Option.none).1).mpr (Or.inl ⟨rfl, rfl⟩)

/-- Counterexample for C8 as stated: when the PR exposes neither a precise
`updated_at` nor a `last_modified`, `is_up_to_date` does not return
`false` — it raises `ValueError`, and `update_db` catches the exception and
skips the record instead of re-fetching it. -/
theorem is_up_to_date_missing_stamps_error :
    is_up_to_date ⟨some 5, some 3, Option.none⟩ Option.none Option.none ≠
      Except.ok false ∧
    is_up_to_date ⟨some 5, some 3, Option.none⟩ Option.none Option.none =
      Except.error () ∧
    update_db_action (some ⟨some 5, some 3, Option.none⟩) Option.none
      Option.none = DbAction.errorSkip ∧
    DbAction.errorSkip ≠ DbAction.update := by
  refine ⟨?_, rfl, rfl, by decide⟩
  simp [is_up_to_date]

/-- C4 (amended): with the `precise` flag, one `nice` iteration returns to
the caller without sleeping out the reset window iff the remaining quota
exceeds 1, or remaining/limit exceeds 0.25, or the reset deadline has
already passed. -/
theorem nice_precise_proceeds_iff (remaining limit : Nat) (resetPassed : Bool)
    (hlimit : 0 < limit) :
    nice remaining limit resetPassed true ≠ NiceOutcome.sleepThenRecheck ↔
      (1 < remaining ∨ limit < 4 * remaining ∨ resetPassed = true) := by
  unfold nice
  split_ifs with h1 h2 h3 h4 <;> simp_all
  exfalso; omega

/-- Witness for C4's amended statement. -/
theorem nice_precise_proceeds_iff_witness :
    0 < 30 ∧ (nice 5 30 false true ≠ NiceOutcome.sleepThenRecheck ↔
      (1 < 5 ∨ 30 < 4 * 5 ∨ false = true)) :=
  ⟨by decide, nice_precise_proceeds_iff 5 30 false (by decide)⟩

/-- Counterexample for C4 as stated: at the quota reading
(remaining = 1, limit = 2, reset still ahead) the precise call proceeds
even though the remaining quota is not greater than 1 — the default
remaining/limit > 0.25 threshold still applies after the precise check. -/
theorem nice_precise_low_quota_proceeds :
    nice 1 2 false true = NiceOutcome.proceed ∧ ¬ (1 < 1) := by decide

/-- C9: a non-sentinel triple whose PR id has no stored Change leaves the
store unchanged, is warned about exactly when the id was not seen before
(so once per distinct unknown id, as the final conjunct's `Nodup` shows),
and the pass continues with the remaining triples. -/
theorem update_db_unknown_pr (s : WalkState) (t : Triple) (rest : List Triple)
    (h1 : t.pr_id ≠ 0) (h2 : dbGet s.db t.pr_id = Option.none) :
    (update_db_step s t).db = s.db ∧
    ((update_db_step s t).warnings =
      if t.pr_id ∈ s.seenPrIds then s.warnings else s.warnings ++ [t.pr_id]) ∧
    update_db_walk s (t :: rest) = update_db_walk (update_db_step s t) rest ∧
    (s.warnings.Nodup → (∀ p ∈ s.warnings, p ∈ s.seenPrIds) →
      (update_db_walk s (t :: rest)).warnings.Nodup) := by
  refine ⟨?_, ?_, rfl, ?_⟩
  · simp [update_db_step, h1, h2]
  · simp [update_db_step, h1, h2]
  · intro hn hsub
    exact update_db_walk_warnings_nodup (t :: rest) s hn hsub

/-- Witness for C9 on a one-triple pass over an empty store. -/
theorem update_db_unknown_pr_witness :
    (update_db_step ⟨[], [], []⟩ ⟨['a'], 5, ['u']⟩).db = [] ∧
    (update_db_walk ⟨[], [], []⟩ [⟨['a'], 5, ['u']⟩]).warnings.Nodup :=
  ⟨(update_db_unknown_pr ⟨[], [], []⟩ ⟨['a'], 5, ['u']⟩ [] (by decide) rfl).1,
   (update_db_unknown_pr ⟨[], [], []⟩ ⟨['a'], 5, ['u']⟩ [] (by decide) rfl).2.2.2
     List.nodup_nil (by simp)⟩

end CpythonStats
